import Mathlib

/-!
Verification development for a proof-carrying DPLL SAT solver (src/dpll.py).

The clause data model (class hierarchy in defns.py, which is not part of the
sources) is modelled from the spec: literals are (variable, sign) pairs over
integer variables, and clauses form a closed sum of three variants
(input clause, branching assumption, resolved clause).  A clause's literal
collection models a Python frozenset as a duplicate-free list; clause
equality for set membership purposes is structural on the literal set, as
the spec states.  Python sets of clauses are modelled as lists with
insertion-ordered, equality-collapsing insertion; Python dicts as
insertion-ordered association lists with in-place update.  While loops and
the recursive search are modelled with an explicit bound on the number of
iterations, sufficient bounds being supplied by the wrappers.
-/

/-- Modelled from the spec: a literal is a `(variable, sign)` pair with an
integer variable identifier and a boolean polarity (defns.py, not in src/).
The field is named `var` because `variable` is reserved in Lean. -/
structure Literal where
  var : Int
  sign : Bool
deriving DecidableEq

/-- Modelled from the spec: negation flips the sign and preserves the
variable (Python `-l`). -/
def Literal.neg (l : Literal) : Literal := ⟨l.var, !l.sign⟩

/-- Modelled from the spec: the closed clause hierarchy of defns.py (not in
src/).  `ax` is an original input clause (class Axiom), `assum` a
single-literal branching hypothesis (class Assumption), `res` a resolvent
remembering its two parent clauses (class ResolvedClause). -/
inductive Clause where
  | ax (literals : List Literal)
  | assum (lit : Literal)
  | res (literals : List Literal) (clause1 clause2 : Clause)
deriving DecidableEq

/-- Modelled from the spec: the literal set exposed by every clause variant;
an Assumption's literal set is the singleton of its literal. -/
def Clause.literals : Clause → List Literal
  | .ax ls => ls
  | .assum l => [l]
  | .res ls _ _ => ls

/-- Modelled from the spec: Python `len(clause)`, the size of the literal
set (literal lists model frozensets and are duplicate-free). -/
def Clause.len (c : Clause) : Nat := c.literals.length

/-- Python `isinstance(c, ResolvedClause)`. -/
def Clause.isRes : Clause → Bool
  | .res _ _ _ => true
  | _ => false

/-- Modelled from the spec: clause equality (`__eq__` in defns.py, not in
src/) is structural, determined by the literal set. -/
def eqvC (c d : Clause) : Bool :=
  (c.literals.all fun l => decide (l ∈ d.literals)) &&
    (d.literals.all fun l => decide (l ∈ c.literals))

/-- Union of two literal frozensets, keeping the first list's order and
appending the second's new elements. -/
def unionLits (a b : List Literal) : List Literal :=
  a ++ b.filter (fun l => decide (l ∉ a))

/-- From src/dpll.py resolve: `res_var = {l.variable for l in c1 if -l in c2}`. -/
def resolveVars (c1 c2 : Clause) : List Int :=
  (c1.literals.filter fun l => decide (l.neg ∈ c2.literals)).map Literal.var

/-- From src/dpll.py: `resolve` builds a ResolvedClause whose literal set is
the union of the parents' literals minus every literal whose variable was
resolved, with the two inputs recorded as parents.  There is no check that
`res_var` is non-empty. -/
def resolve (c1 c2 : Clause) : Clause :=
  Clause.res
    ((unionLits c1.literals c2.literals).filter fun l =>
      decide (l.var ∉ resolveVars c1 c2))
    c1 c2

/-- Modelled from the spec: adding to a Python `Set[Clause]`, which keeps
the existing element when an equal (same literal set) clause is present. -/
def setAdd (f : List Clause) (c : Clause) : List Clause :=
  if f.any (fun d => eqvC d c) then f else f ++ [c]

/-- From src/dpll.py `unit_propagate_literal`: the loop over the formula,
with `l` the unit's literal and `acc` the new formula built so far.
Clauses containing `l` are dropped as satisfied, clauses containing `-l`
are replaced by their resolvent against the unit, others are kept. -/
def upl_go (u : Clause) (l : Literal) (acc : List Clause) : List Clause → List Clause
  | [] => acc
  | c :: rest =>
    if l ∈ c.literals then upl_go u l acc rest
    else if l.neg ∈ c.literals then upl_go u l (setAdd acc (resolve c u)) rest
    else upl_go u l (setAdd acc c) rest

/-- From src/dpll.py: `unit_propagate_literal` raises when the clause being
propagated is not a unit clause; the raise is modelled as `none`. -/
def unit_propagate_literal (f : List Clause) (u : Clause) : Option (List Clause) :=
  match u.literals with
  | [l] => some (upl_go u l [] f)
  | _ => none

/-- From src/dpll.py: `get_unit_clauses` returns the clauses of length 1. -/
def get_unit_clauses (f : List Clause) : List Clause :=
  f.filter fun c => decide (c.len = 1)

/-- Modelled from the spec: the mutable `assignments` dict, as an
insertion-ordered association list. -/
abbrev Assignments := List (Int × Bool)

/-- Dict lookup: the value stored for `v`, if any. -/
def lookupA (A : Assignments) (v : Int) : Option Bool :=
  (A.find? fun p => decide (p.1 = v)).map Prod.snd

/-- Dict update `A[v] = b`: overwrites in place when the key is present,
appends otherwise (Python dicts preserve insertion order). -/
def updA (A : Assignments) (v : Int) (b : Bool) : Assignments :=
  if A.any (fun p => decide (p.1 = v)) then
    A.map (fun p => if p.1 = v then (v, b) else p)
  else A ++ [(v, b)]

/-- One iteration of the `for unit in unit_clauses` body in
src/dpll.py `unit_propagate`: propagate the unit through the formula and
record `assignments[literal.variable] = literal.sign`.  The second arm is
unreachable for genuine unit clauses (Python would raise there). -/
def stepUnit (f : List Clause) (A : Assignments) (u : Clause) : List Clause × Assignments :=
  match u.literals with
  | [l] => (upl_go u l [] f, updA A l.var l.sign)
  | _ => (f, A)

/-- The `for unit in unit_clauses` loop of src/dpll.py `unit_propagate`,
over a snapshot of unit clauses. -/
def prop_units : List Clause → List Clause → Assignments → List Clause × Assignments
  | [], f, A => (f, A)
  | u :: us, f, A => prop_units us (stepUnit f A u).1 (stepUnit f A u).2

/-- Total number of literal occurrences in a formula; each round of
propagation strictly decreases it, so it bounds the while loop. -/
def totalLen (f : List Clause) : Nat := (f.map Clause.len).sum

/-- The `while True` loop of src/dpll.py `unit_propagate`, with an explicit
iteration bound: take the unit clauses, stop when there are none, otherwise
propagate them all and repeat. -/
def up_go : Nat → List Clause → Assignments → List Clause × Assignments
  | 0, f, A => (f, A)
  | n + 1, f, A =>
    if (get_unit_clauses f).isEmpty then (f, A)
    else
      up_go n (prop_units (get_unit_clauses f) f A).1 (prop_units (get_unit_clauses f) f A).2

/-- From src/dpll.py: `unit_propagate`, run with enough iterations for the
loop to reach its fixpoint (each iteration removes at least one literal
occurrence). -/
def unit_propagate (f : List Clause) (A : Assignments) : List Clause × Assignments :=
  up_go (totalLen f + 1) f A

/-- From src/dpll.py `remove_assumption`, translated exactly as written:
Assumptions and Axioms are returned unchanged, and for a ResolvedClause the
code tests `isinstance(assumption, ResolvedClause)` — the assumption
argument, not the clause — so the recursive branches run only when the
assumption itself is a ResolvedClause, and otherwise the clause is returned
unchanged.  Clause comparison `clause1 == assumption` is the structural
literal-set equality of the data model. -/
def remove_assumption (assumption : Clause) : Clause → Clause
  | .assum l => .assum l
  | .ax ls => .ax ls
  | .res ls c1 c2 =>
    if assumption.isRes then
      if eqvC c1 assumption then remove_assumption assumption c2
      else if eqvC c2 assumption then remove_assumption assumption c1
      else resolve (remove_assumption assumption c1) (remove_assumption assumption c2)
    else .res ls c1 c2

/-- From src/dpll.py: `select_variable` returns the variable of the first
literal of the first clause that has one. -/
def select_variable : List Clause → Option Int
  | [] => none
  | c :: rest =>
    match c.literals with
    | [] => select_variable rest
    | l :: _ => some l.var

/-- Modelled from the spec: the SATResult / UNSATResult union returned by
the search driver (defns.py, not in src/). -/
inductive DpllResult where
  | sat (assignments : Assignments)
  | unsat (clause : Clause)
deriving DecidableEq

/-- From src/dpll.py: `dpll_internal`, with an explicit recursion-depth
bound (the Python recursion depth is bounded by the number of distinct
variables).  The state component of the returned pair models the
`assignments` dict as mutated by the call, threaded into the second
recursive call exactly as the shared dict is in Python. -/
def dpll_internal : Nat → List Clause → Assignments → Option (DpllResult × Assignments)
  | 0, _, _ => none
  | n + 1, f, A =>
    if (unit_propagate f A).1.isEmpty then
      some (.sat (unit_propagate f A).2, (unit_propagate f A).2)
    else
      match (unit_propagate f A).1.find? (fun c => decide (c.len = 0)) with
      | some c => some (.unsat c, (unit_propagate f A).2)
      | none =>
        match select_variable (unit_propagate f A).1 with
        | none => none
        | some v =>
          match dpll_internal n (setAdd (unit_propagate f A).1 (Clause.assum ⟨v, true⟩))
              (unit_propagate f A).2 with
          | none => none
          | some (.sat s, A1) => some (.sat s, A1)
          | some (.unsat c, A1) =>
            if (remove_assumption (Clause.assum ⟨v, true⟩) c).len = 0 then
              some (.unsat (remove_assumption (Clause.assum ⟨v, true⟩) c), A1)
            else
              dpll_internal n (setAdd (unit_propagate f A).1
                (remove_assumption (Clause.assum ⟨v, true⟩) c)) A1

/-- The distinct variables occurring in a formula. -/
def varsF (f : List Clause) : List Int :=
  ((f.map fun c => c.literals.map Literal.var).flatten).dedup

/-- Number of distinct variables in a formula. -/
def numVars (f : List Clause) : Nat := (varsF f).length

/-- From src/dpll.py: `dpll` starts the solve with no assignments; the
depth bound `numVars f + 1` covers the recursion (each level below the
first eliminates at least one variable). -/
def dpll (f : List Clause) : Option (DpllResult × Assignments) :=
  dpll_internal (numVars f + 1) f []

/-- A proof DAG contains an Assumption node somewhere. -/
def hasAssumption : Clause → Bool
  | .assum _ => true
  | .ax _ => false
  | .res _ c1 c2 => hasAssumption c1 || hasAssumption c2

/-- A proof DAG contains the given node (structural identity). -/
def containsNode (a : Clause) : Clause → Bool
  | .ax ls => decide (Clause.ax ls = a)
  | .assum l => decide (Clause.assum l = a)
  | .res ls c1 c2 =>
    decide (Clause.res ls c1 c2 = a) || containsNode a c1 || containsNode a c2

/-- Well-formed formula: every clause's literal list is duplicate-free,
as lists modelling frozensets are. -/
def WFf (f : List Clause) : Prop := ∀ c ∈ f, c.literals.Nodup

/-- No clause of the list has the same literal set as `c`. -/
def noEqvIn (c : Clause) (f : List Clause) : Bool :=
  f.all fun d => !(eqvC c d)

/-- Set-likeness: the list has pairwise distinct literal sets, as a list
modelling a Python `Set[Clause]` does. -/
def SetLikeB : List Clause → Bool
  | [] => true
  | c :: rest => noEqvIn c rest && SetLikeB rest

/-- The variable `v` occurs in some clause of the formula. -/
def varOccursF (v : Int) (f : List Clause) : Prop :=
  ∃ c ∈ f, ∃ m ∈ c.literals, m.var = v

/-- The formula contains a clause with empty literal set. -/
def emptyIn (f : List Clause) : Prop := ∃ c ∈ f, c.literals = []

/-- The proof clause of an UNSAT result, if the result is UNSAT
(Python `result.clause`). -/
def unsatProof? : Option (DpllResult × Assignments) → Option Clause
  | some (.unsat c, _) => some c
  | _ => none

/-- Literal `x1`. -/
def L1t : Literal := ⟨1, true⟩

/-- Literal `-x1`. -/
def L1f : Literal := ⟨1, false⟩

/-- Literal `x2`. -/
def L2t : Literal := ⟨2, true⟩

/-- Literal `-x2`. -/
def L2f : Literal := ⟨2, false⟩

/-- The formula `{{x1,x2},{x1,-x2},{-x1,x2},{-x1,-x2}}`: unsatisfiable, and
deciding it forces the solver to branch. -/
def F4 : List Clause :=
  [Clause.ax [L1t, L2t], Clause.ax [L1t, L2f], Clause.ax [L1f, L2t], Clause.ax [L1f, L2f]]

/-- The proof clause `dpll` returns on `F4`: the empty clause resolved from
two unit resolvents, both of which still have the branch Assumption `x1` as
a parent, because `remove_assumption` returned the proof unchanged. -/
def P4 : Clause :=
  Clause.res []
    (Clause.res [L2f] (Clause.ax [L1f, L2f]) (Clause.assum L1t))
    (Clause.res [L2t] (Clause.ax [L1f, L2t]) (Clause.assum L1t))

theorem literal_neg_neg (l : Literal) : l.neg.neg = l := by
  cases l with
  | mk v s => simp [Literal.neg]

theorem literal_neg_var (l : Literal) : l.neg.var = l.var := rfl

theorem literal_var_cases {m l : Literal} (h : m.var = l.var) : m = l ∨ m = l.neg := by
  rcases m with ⟨v1, s1⟩
  rcases l with ⟨v2, s2⟩
  simp only [Literal.var] at h
  subst h
  cases s1 <;> cases s2 <;> simp [Literal.neg]

theorem mem_unionLits {a b : List Literal} {m : Literal} :
    m ∈ unionLits a b ↔ m ∈ a ∨ m ∈ b := by
  simp only [unionLits, List.mem_append, List.mem_filter, decide_eq_true_eq]
  by_cases h : m ∈ a <;> simp [h]

theorem mem_resolveVars {c1 c2 : Clause} {v : Int} :
    v ∈ resolveVars c1 c2 ↔ ∃ l ∈ c1.literals, l.neg ∈ c2.literals ∧ l.var = v := by
  simp [resolveVars, List.mem_map, List.mem_filter]
  constructor
  · rintro ⟨l, ⟨hl, hn⟩, hv⟩
    exact ⟨l, hl, hn, hv⟩
  · rintro ⟨l, hl, hn, hv⟩
    exact ⟨l, ⟨hl, hn⟩, hv⟩

theorem mem_resolve_literals {c1 c2 : Clause} {m : Literal} :
    m ∈ (resolve c1 c2).literals ↔
      (m ∈ c1.literals ∨ m ∈ c2.literals) ∧ m.var ∉ resolveVars c1 c2 := by
  simp [resolve, Clause.literals, List.mem_filter, mem_unionLits]

/-- Claim C5: for clauses sharing at least one complementary pair, `resolve`
returns a ResolvedClause recording both inputs as parents, whose literal
set is the union of the inputs' literal sets minus every literal whose
variable is in resolvedVars; every surviving literal comes from one of the
inputs and no complementary variable survives. -/
theorem resolve_literalset_spec (c1 c2 : Clause)
    (_h : ∃ l ∈ c1.literals, l.neg ∈ c2.literals) :
    (∃ ls, resolve c1 c2 = Clause.res ls c1 c2) ∧
    (∀ m, m ∈ (resolve c1 c2).literals ↔
      (m ∈ c1.literals ∨ m ∈ c2.literals) ∧ m.var ∉ resolveVars c1 c2) ∧
    (∀ m ∈ (resolve c1 c2).literals, m ∈ c1.literals ∨ m ∈ c2.literals) ∧
    (∀ l ∈ c1.literals, l.neg ∈ c2.literals →
      ∀ m ∈ (resolve c1 c2).literals, m.var ≠ l.var) := by
  refine ⟨⟨_, rfl⟩, fun m => mem_resolve_literals, fun m hm => (mem_resolve_literals.1 hm).1,
    fun l hl hn m hm hv => ?_⟩
  exact (mem_resolve_literals.1 hm).2 (mem_resolveVars.2 ⟨l, hl, hn, hv.symm⟩)

/-- Claim C5 witness: instantiation at `{x1, x2}` and `{-x1}`. -/
theorem resolve_literalset_spec_witness :
    (∃ l ∈ (Clause.ax [L1t, L2t]).literals, l.neg ∈ (Clause.ax [L1f]).literals) ∧
    ((∃ ls, resolve (Clause.ax [L1t, L2t]) (Clause.ax [L1f]) =
        Clause.res ls (Clause.ax [L1t, L2t]) (Clause.ax [L1f])) ∧
    (∀ m, m ∈ (resolve (Clause.ax [L1t, L2t]) (Clause.ax [L1f])).literals ↔
      (m ∈ (Clause.ax [L1t, L2t]).literals ∨ m ∈ (Clause.ax [L1f]).literals) ∧
        m.var ∉ resolveVars (Clause.ax [L1t, L2t]) (Clause.ax [L1f])) ∧
    (∀ m ∈ (resolve (Clause.ax [L1t, L2t]) (Clause.ax [L1f])).literals,
      m ∈ (Clause.ax [L1t, L2t]).literals ∨ m ∈ (Clause.ax [L1f]).literals) ∧
    (∀ l ∈ (Clause.ax [L1t, L2t]).literals, l.neg ∈ (Clause.ax [L1f]).literals →
      ∀ m ∈ (resolve (Clause.ax [L1t, L2t]) (Clause.ax [L1f])).literals,
        m.var ≠ l.var)) :=
  ⟨⟨L1t, by decide⟩, resolve_literalset_spec _ _ ⟨L1t, by decide⟩⟩

/-- Claim C6 counterexample: on two clauses with no complementary pair
(`{x1}` and `{x2}`), `resolve` does not abort: it silently returns a
ResolvedClause containing the union of the two literal sets, with
`resolvedVars` empty. -/
theorem resolve_no_complement_returns_clause_cex :
    resolve (Clause.ax [L1t]) (Clause.ax [L2t]) =
      Clause.res [L1t, L2t] (Clause.ax [L1t]) (Clause.ax [L2t]) ∧
    resolveVars (Clause.ax [L1t]) (Clause.ax [L2t]) = [] := by decide

/-- Claim C6 (amended): calling `resolve` on two clauses with no
complementary-variable pair does not fail; it returns a ResolvedClause
recording both parents whose literal set is the full union of the two
inputs' literal sets (nothing is excluded because resolvedVars is empty). -/
theorem resolve_no_complement_full_union (c1 c2 : Clause)
    (h : ∀ l ∈ c1.literals, l.neg ∉ c2.literals) :
    resolveVars c1 c2 = [] ∧
    resolve c1 c2 = Clause.res (unionLits c1.literals c2.literals) c1 c2 := by
  have hrv : resolveVars c1 c2 = [] := by
    rcases hv : resolveVars c1 c2 with _ | ⟨v, rest⟩
    · rfl
    · exfalso
      have : v ∈ resolveVars c1 c2 := by rw [hv]; exact List.mem_cons_self _ _
      rcases mem_resolveVars.1 this with ⟨l, hl, hn, _⟩
      exact h l hl hn
  refine ⟨hrv, ?_⟩
  unfold resolve
  rw [hrv]
  congr 1
  apply List.filter_eq_self.2
  intro a _
  simp

/-- Claim C6 witness for the amended statement: instantiation at `{x1}`
and `{x2}`. -/
theorem resolve_no_complement_full_union_witness :
    (∀ l ∈ (Clause.ax [L1t]).literals, l.neg ∉ (Clause.ax [L2t]).literals) ∧
    (resolveVars (Clause.ax [L1t]) (Clause.ax [L2t]) = [] ∧
      resolve (Clause.ax [L1t]) (Clause.ax [L2t]) =
        Clause.res (unionLits (Clause.ax [L1t]).literals (Clause.ax [L2t]).literals)
          (Clause.ax [L1t]) (Clause.ax [L2t])) :=
  ⟨by decide, resolve_no_complement_full_union _ _ (by decide)⟩

theorem mem_of_mem_setAdd {f : List Clause} {c d : Clause} (h : d ∈ setAdd f c) :
    d ∈ f ∨ d = c := by
  unfold setAdd at h
  split at h
  · exact Or.inl h
  · rcases List.mem_append.1 h with h' | h'
    · exact Or.inl h'
    · simp at h'
      exact Or.inr h'

theorem mem_setAdd_of_mem {f : List Clause} {c d : Clause} (h : d ∈ f) : d ∈ setAdd f c := by
  unfold setAdd
  split
  · exact h
  · exact List.mem_append.2 (Or.inl h)

theorem upl_go_origin {u : Clause} {l : Literal} :
    ∀ (f acc : List Clause), ∀ d ∈ upl_go u l acc f,
      d ∈ acc ∨ ∃ c ∈ f, l ∉ c.literals ∧
        ((l.neg ∈ c.literals ∧ d = resolve c u) ∨ (l.neg ∉ c.literals ∧ d = c))
  | [], acc, d, hd => Or.inl hd
  | c :: rest, acc, d, hd => by
    unfold upl_go at hd
    split at hd
    · rcases upl_go_origin rest acc d hd with h | ⟨c', hc', h⟩
      · exact Or.inl h
      · exact Or.inr ⟨c', List.mem_cons_of_mem _ hc', h⟩
    · split at hd
      · rcases upl_go_origin rest _ d hd with h | ⟨c', hc', h⟩
        · rcases mem_of_mem_setAdd h with h' | h'
          · exact Or.inl h'
          · exact Or.inr ⟨c, List.mem_cons_self _ _, by assumption, Or.inl ⟨by assumption, h'⟩⟩
        · exact Or.inr ⟨c', List.mem_cons_of_mem _ hc', h⟩
      · rcases upl_go_origin rest _ d hd with h | ⟨c', hc', h⟩
        · rcases mem_of_mem_setAdd h with h' | h'
          · exact Or.inl h'
          · exact Or.inr ⟨c, List.mem_cons_self _ _, by assumption, Or.inr ⟨by assumption, h'⟩⟩
        · exact Or.inr ⟨c', List.mem_cons_of_mem _ hc', h⟩

theorem resolve_unit_no_var {u c : Clause} {l : Literal} (hu : u.literals = [l])
    (hneg : l.neg ∈ c.literals) :
    ∀ m ∈ (resolve c u).literals, m.var ≠ l.var := by
  intro m hm hv
  have hres : l.var ∈ resolveVars c u := by
    refine mem_resolveVars.2 ⟨l.neg, hneg, ?_, literal_neg_var l⟩
    rw [literal_neg_neg, hu]
    exact List.mem_singleton.2 rfl
  exact (mem_resolve_literals.1 hm).2 (hv ▸ hres)

theorem upl_go_no_var {u : Clause} {l : Literal} (hu : u.literals = [l])
    (f : List Clause) :
    ∀ d ∈ upl_go u l [] f, ∀ m ∈ d.literals, m.var ≠ l.var := by
  intro d hd m hm
  rcases upl_go_origin f [] d hd with h | ⟨c, _, hl, h⟩
  · simp at h
  · rcases h with ⟨hneg, rfl⟩ | ⟨hneg, rfl⟩
    · exact resolve_unit_no_var hu hneg m hm
    · intro hv
      rcases literal_var_cases hv with rfl | rfl
      · exact hl hm
      · exact hneg hm

/-- Claim C10: propagating a genuine unit clause with literal `l` removes
the variable of `l` from the formula entirely: satisfied clauses are
dropped and resolving against the unit removes both `l` and `-l`. -/
theorem unit_propagate_literal_eliminates_variable {f g : List Clause} {u : Clause}
    {l : Literal} (hu : u.literals = [l]) (h : unit_propagate_literal f u = some g) :
    ∀ c ∈ g, ∀ m ∈ c.literals, m.var ≠ l.var := by
  unfold unit_propagate_literal at h
  rw [hu] at h
  have hg : g = upl_go u l [] f := by
    injection h with h'
    exact h'.symm
  rw [hg]
  exact upl_go_no_var hu f

/-- Claim C10 witness: propagating the unit `{x1}` through
`{{x1, x2}, {-x1}}` leaves a formula with no occurrence of `x1`. -/
theorem unit_propagate_literal_eliminates_variable_witness :
    (Clause.ax [L1t]).literals = [L1t] ∧
    unit_propagate_literal [Clause.ax [L1t, L2t], Clause.ax [L1f]] (Clause.ax [L1t]) =
      some [Clause.res [] (Clause.ax [L1f]) (Clause.ax [L1t])] ∧
    (∀ c ∈ [Clause.res [] (Clause.ax [L1f]) (Clause.ax [L1t])],
      ∀ m ∈ c.literals, m.var ≠ L1t.var) :=
  ⟨by decide, by decide,
    @unit_propagate_literal_eliminates_variable
      [Clause.ax [L1t, L2t], Clause.ax [L1f]]
      [Clause.res [] (Clause.ax [L1f]) (Clause.ax [L1t])]
      (Clause.ax [L1t]) L1t (by decide) (by decide)⟩

/-- Claim C2 (code bug): `remove_assumption` tests whether the ASSUMPTION is
a ResolvedClause instead of the clause, so for an Assumption target it
returns every ResolvedClause unchanged; at `a = Assumption(x1)` and
`c = ResolvedClause({}, a, Axiom({}))` the claim requires the result
`remove_assumption(a, c.clause2) = Axiom({})`, but the code returns `c`. -/
theorem remove_assumption_returns_child_unchanged_bug :
    remove_assumption (Clause.assum L1t) (Clause.res [] (Clause.assum L1t) (Clause.ax [])) =
      Clause.res [] (Clause.assum L1t) (Clause.ax []) ∧
    Clause.res [] (Clause.assum L1t) (Clause.ax []) ≠ Clause.ax [] := by decide

/-- Claim C3 (code bug): on an empty-literal-set resolvent whose proof tree
uses the assumption (`ResolvedClause({}, Axiom({-x1}), Assumption(x1))`),
`remove_assumption` returns the clause unchanged, so the assumption is
still contained in the returned proof DAG. -/
theorem remove_assumption_empty_clause_keeps_assumption_bug :
    (Clause.res [] (Clause.ax [L1f]) (Clause.assum L1t)).literals = [] ∧
    remove_assumption (Clause.assum L1t)
        (Clause.res [] (Clause.ax [L1f]) (Clause.assum L1t)) =
      Clause.res [] (Clause.ax [L1f]) (Clause.assum L1t) ∧
    containsNode (Clause.assum L1t)
        (remove_assumption (Clause.assum L1t)
          (Clause.res [] (Clause.ax [L1f]) (Clause.assum L1t))) = true := by decide

/-- Claim C1 (code bug): on `F4 = {{x1,x2},{x1,-x2},{-x1,x2},{-x1,-x2}}`
the solver returns UNSAT with the empty-literal-set proof `P4`, but `P4`
still contains the branching Assumption `x1` as a leaf, because
`remove_assumption` returned the proof unchanged; the claim requires every
leaf to be an Axiom of the formula. -/
theorem dpll_unsat_proof_keeps_assumption_bug :
    dpll F4 = some (.unsat P4, [(1, true), (2, false)]) ∧
    P4.literals = [] ∧
    hasAssumption P4 = true := by decide

/-- Claim C8: `dpll` on the empty formula is SAT with the empty assignments
mapping, and `dpll` on a formula containing one empty Axiom is UNSAT with
that Axiom itself as the proof. -/
theorem dpll_empty_formula_and_empty_clause :
    dpll [] = some (.sat [], []) ∧
    dpll [Clause.ax []] = some (.unsat (Clause.ax []), []) := by decide

theorem lvar_mem_resolveVars {u c : Clause} {l : Literal} (hu : u.literals = [l])
    (hneg : l.neg ∈ c.literals) : l.var ∈ resolveVars c u := by
  refine mem_resolveVars.2 ⟨l.neg, hneg, ?_, literal_neg_var l⟩
  rw [literal_neg_neg, hu]
  exact List.mem_singleton.2 rfl

theorem totalLen_cons (c : Clause) (f : List Clause) :
    totalLen (c :: f) = c.len + totalLen f := by
  simp [totalLen]

theorem totalLen_setAdd (f : List Clause) (c : Clause) :
    totalLen (setAdd f c) ≤ totalLen f + c.len := by
  unfold setAdd
  split
  · omega
  · simp [totalLen]

theorem resolve_unit_len_le {u c : Clause} {l : Literal} (hu : u.literals = [l])
    (hl : l ∉ c.literals) (hneg : l.neg ∈ c.literals) :
    (resolve c u).len ≤ c.len := by
  show ((unionLits c.literals u.literals).filter _).length ≤ c.literals.length
  rw [hu]
  unfold unionLits
  have h1 : [l].filter (fun x => decide (x ∉ c.literals)) = [l] := by simp [hl]
  rw [h1, List.filter_append]
  have h2 : [l].filter (fun x => decide (x.var ∉ resolveVars c u)) = [] := by
    simp
    exact lvar_mem_resolveVars hu hneg
  rw [h2, List.append_nil]
  exact List.length_filter_le _ _

theorem upl_go_totalLen {u : Clause} {l : Literal} (hu : u.literals = [l]) :
    ∀ (f acc : List Clause), totalLen (upl_go u l acc f) ≤ totalLen acc + totalLen f
  | [], acc => by simp [upl_go, totalLen]
  | c :: rest, acc => by
    unfold upl_go
    rw [totalLen_cons]
    split
    · have := upl_go_totalLen hu rest acc
      omega
    · split
      · have h1 := upl_go_totalLen hu rest (setAdd acc (resolve c u))
        have h2 := totalLen_setAdd acc (resolve c u)
        have h3 : (resolve c u).len ≤ c.len :=
          resolve_unit_len_le hu (by assumption) (by assumption)
        omega
      · have h1 := upl_go_totalLen hu rest (setAdd acc c)
        have h2 := totalLen_setAdd acc c
        omega

theorem upl_go_totalLen_lt {u w : Clause} {l : Literal} (hu : u.literals = [l])
    (hlw : l ∈ w.literals) :
    ∀ (f acc : List Clause), w ∈ f →
      totalLen (upl_go u l acc f) + w.len ≤ totalLen acc + totalLen f
  | [], acc, hw => by simp at hw
  | c :: rest, acc, hw => by
    unfold upl_go
    rw [totalLen_cons]
    rcases List.mem_cons.1 hw with rfl | hw'
    · rw [if_pos hlw]
      have := upl_go_totalLen hu rest acc
      omega
    · split
      · have := upl_go_totalLen_lt hu hlw rest acc hw'
        omega
      · split
        · have h1 := upl_go_totalLen_lt hu hlw rest (setAdd acc (resolve c u)) hw'
          have h2 := totalLen_setAdd acc (resolve c u)
          have h3 : (resolve c u).len ≤ c.len :=
            resolve_unit_len_le hu (by assumption) (by assumption)
          omega
        · have h1 := upl_go_totalLen_lt hu hlw rest (setAdd acc c) hw'
          have h2 := totalLen_setAdd acc c
          omega

theorem prop_units_totalLen : ∀ (us f : List Clause) (A : Assignments),
    totalLen (prop_units us f A).1 ≤ totalLen f
  | [], f, A => le_refl _
  | u :: us, f, A => by
    rcases hls : u.literals with _ | ⟨l, _ | ⟨l2, rest2⟩⟩
    · have h := prop_units_totalLen us (stepUnit f A u).1 (stepUnit f A u).2
      simpa [prop_units, stepUnit, hls] using h
    · have h := prop_units_totalLen us (stepUnit f A u).1 (stepUnit f A u).2
      simp only [prop_units]
      refine le_trans h ?_
      simp only [stepUnit, hls]
      have := upl_go_totalLen hls f []
      simpa [totalLen] using this
    · have h := prop_units_totalLen us (stepUnit f A u).1 (stepUnit f A u).2
      simpa [prop_units, stepUnit, hls] using h

theorem prop_units_totalLen_lt {f : List Clause} {u : Clause} {us : List Clause}
    (hus : get_unit_clauses f = u :: us) (A : Assignments) :
    totalLen (prop_units (u :: us) f A).1 < totalLen f := by
  have hmem : u ∈ get_unit_clauses f := hus ▸ List.mem_cons_self _ _
  have hf : u ∈ f := (List.mem_filter.1 hmem).1
  have hlen : u.len = 1 := by
    have := (List.mem_filter.1 hmem).2
    simpa using this
  rcases List.length_eq_one.1 hlen with ⟨l, hls⟩
  have hlmem : l ∈ u.literals := hls ▸ List.mem_singleton.2 rfl
  have hstep : totalLen (upl_go u l [] f) + u.len ≤ totalLen ([] : List Clause) + totalLen f :=
    upl_go_totalLen_lt hls hlmem f [] hf
  have h1 : totalLen (upl_go u l [] f) < totalLen f := by
    rw [hlen] at hstep
    have h0 : totalLen ([] : List Clause) = 0 := rfl
    rw [h0] at hstep
    omega
  have h2 : totalLen (prop_units us (upl_go u l [] f) (updA A l.var l.sign)).1 ≤
      totalLen (upl_go u l [] f) :=
    prop_units_totalLen _ _ _
  calc totalLen (prop_units (u :: us) f A).1
      = totalLen (prop_units us (upl_go u l [] f) (updA A l.var l.sign)).1 := by
        simp [prop_units, stepUnit, hls]
    _ ≤ totalLen (upl_go u l [] f) := h2
    _ < totalLen f := h1

theorem up_go_no_units : ∀ (n : Nat) (f : List Clause) (A : Assignments),
    totalLen f < n → get_unit_clauses (up_go n f A).1 = []
  | 0, f, A, h => absurd h (Nat.not_lt_zero _)
  | n + 1, f, A, h => by
    unfold up_go
    rcases hus : get_unit_clauses f with _ | ⟨u, us⟩
    · simp [hus]
    · rw [if_neg (by simp)]
      refine up_go_no_units n _ _ ?_
      have := prop_units_totalLen_lt hus A
      omega

theorem find_map_upd_self {v : Int} {b : Bool} :
    ∀ (A : Assignments), A.any (fun p => decide (p.1 = v)) = true →
      lookupA (A.map (fun p => if p.1 = v then (v, b) else p)) v = some b
  | [], h => by simp at h
  | p :: A, h => by
    by_cases hp : p.1 = v
    · simp [lookupA, List.find?, hp]
    · have h' : A.any (fun p => decide (p.1 = v)) = true := by
        simp [List.any_cons, hp] at h
        simpa using h
      have := @find_map_upd_self v b A h'
      simpa [lookupA, List.find?, hp] using this

theorem find_map_upd_other {v w : Int} {b : Bool} (hw : w ≠ v) :
    ∀ (A : Assignments),
      lookupA (A.map (fun p => if p.1 = v then (v, b) else p)) w = lookupA A w
  | [] => rfl
  | p :: A => by
    by_cases hp : p.1 = v
    · have := @find_map_upd_other v w b hw A
      have hpw : ¬ p.1 = w := by rw [hp]; exact fun h => hw h.symm
      simpa [lookupA, List.find?, hp, hpw, Ne.symm hw] using this
    · by_cases hpw : p.1 = w
      · simp [lookupA, List.find?, hp, hpw, hw]
      · have := @find_map_upd_other v w b hw A
        simpa [lookupA, List.find?, hp, hpw] using this

theorem find_append_self {v : Int} {b : Bool} :
    ∀ (A : Assignments), A.any (fun p => decide (p.1 = v)) = false →
      lookupA (A ++ [(v, b)]) v = some b
  | [], _ => by simp [lookupA, List.find?]
  | p :: A, h => by
    have hp : ¬ p.1 = v := by
      intro hpv
      simp [List.any_cons, hpv] at h
    have h' : A.any (fun p => decide (p.1 = v)) = false := by
      simp [List.any_cons] at h
      simpa using h.2
    have := @find_append_self v b A h'
    simpa [lookupA, List.find?, hp] using this

theorem find_append_other {v w : Int} {b : Bool} (hw : w ≠ v) :
    ∀ (A : Assignments), lookupA (A ++ [(v, b)]) w = lookupA A w
  | [] => by simp [lookupA, List.find?, Ne.symm hw]
  | p :: A => by
    by_cases hpw : p.1 = w
    · simp [lookupA, List.find?, hpw]
    · have := @find_append_other v w b hw A
      simpa [lookupA, List.find?, hpw] using this

theorem lookupA_updA_self (A : Assignments) (v : Int) (b : Bool) :
    lookupA (updA A v b) v = some b := by
  by_cases hA : A.any (fun p => decide (p.1 = v)) = true
  · rw [updA, if_pos hA]
    exact @find_map_upd_self v b A hA
  · rw [updA, if_neg hA]
    exact @find_append_self v b A (Bool.eq_false_iff.2 hA)

theorem lookupA_updA_other {A : Assignments} {v w : Int} {b : Bool} (hw : w ≠ v) :
    lookupA (updA A v b) w = lookupA A w := by
  by_cases hA : A.any (fun p => decide (p.1 = v)) = true
  · rw [updA, if_pos hA]
    exact @find_map_upd_other v w b hw A
  · rw [updA, if_neg hA]
    exact @find_append_other v w b hw A

theorem literal_eta (l : Literal) : (⟨l.var, l.sign⟩ : Literal) = l := rfl

theorem prop_units_bind : ∀ (us f : List Clause) (A : Assignments) (v : Int) (b : Bool),
    lookupA (prop_units us f A).2 v = some b →
    lookupA A v = some b ∨ ∃ u ∈ us, (⟨v, b⟩ : Literal) ∈ u.literals
  | [], f, A, v, b, h => Or.inl h
  | u :: us, f, A, v, b, h => by
    rcases hls : u.literals with _ | ⟨l, _ | ⟨l2, rest2⟩⟩
    · rcases prop_units_bind us _ _ v b (by simpa [prop_units, stepUnit, hls] using h) with
        h' | ⟨u', hu', hm⟩
      · exact Or.inl h'
      · exact Or.inr ⟨u', List.mem_cons_of_mem _ hu', hm⟩
    · rcases prop_units_bind us _ _ v b (by simpa [prop_units, stepUnit, hls] using h) with
        h' | ⟨u', hu', hm⟩
      · by_cases hv : v = l.var
        · subst hv
          rw [lookupA_updA_self] at h'
          have hb : b = l.sign := by
            injection h' with h''
            exact h''.symm
          subst hb
          refine Or.inr ⟨u, List.mem_cons_self _ _, ?_⟩
          rw [hls, literal_eta]
          exact List.mem_singleton.2 rfl
        · rw [lookupA_updA_other hv] at h'
          exact Or.inl h'
      · exact Or.inr ⟨u', List.mem_cons_of_mem _ hu', hm⟩
    · rcases prop_units_bind us _ _ v b (by simpa [prop_units, stepUnit, hls] using h) with
        h' | ⟨u', hu', hm⟩
      · exact Or.inl h'
      · exact Or.inr ⟨u', List.mem_cons_of_mem _ hu', hm⟩

theorem upl_go_lit_origin {u : Clause} {l : Literal} (hu : u.literals = [l]) :
    ∀ (f acc : List Clause), ∀ d ∈ upl_go u l acc f, ∀ m ∈ d.literals,
      (∃ a ∈ acc, m ∈ a.literals) ∨ (∃ c ∈ f, m ∈ c.literals) := by
  intro f acc d hd m hm
  rcases upl_go_origin f acc d hd with h | ⟨c, hc, hl, h⟩
  · exact Or.inl ⟨d, h, hm⟩
  · rcases h with ⟨hneg, rfl⟩ | ⟨hkeep, hdc⟩
    · rcases (mem_resolve_literals.1 hm).1 with h' | h'
      · exact Or.inr ⟨c, hc, h'⟩
      · exfalso
        rw [hu] at h'
        have hml : m = l := List.mem_singleton.1 h'
        exact (mem_resolve_literals.1 hm).2
          (hml ▸ lvar_mem_resolveVars hu hneg)
    · exact Or.inr ⟨c, hc, hdc ▸ hm⟩

theorem prop_units_lit : ∀ (us f : List Clause) (A : Assignments),
    ∀ d ∈ (prop_units us f A).1, ∀ m ∈ d.literals, ∃ c ∈ f, m ∈ c.literals
  | [], f, A, d, hd, m, hm => ⟨d, hd, hm⟩
  | u :: us, f, A, d, hd, m, hm => by
    rcases hls : u.literals with _ | ⟨l, _ | ⟨l2, rest2⟩⟩
    · exact prop_units_lit us _ _ d (by simpa [prop_units, stepUnit, hls] using hd) m hm
    · have h := prop_units_lit us _ _ d (by simpa [prop_units, stepUnit, hls] using hd) m hm
      rcases h with ⟨c, hc, hm'⟩
      rcases upl_go_lit_origin hls f [] c hc m hm' with h' | h'
      · simp at h'
      · exact h'
    · exact prop_units_lit us _ _ d (by simpa [prop_units, stepUnit, hls] using hd) m hm

theorem up_go_bind : ∀ (n : Nat) (f : List Clause) (A : Assignments) (v : Int) (b : Bool),
    lookupA (up_go n f A).2 v = some b →
    lookupA A v = some b ∨ ∃ c ∈ f, (⟨v, b⟩ : Literal) ∈ c.literals
  | 0, f, A, v, b, h => Or.inl h
  | n + 1, f, A, v, b, h => by
    unfold up_go at h
    split at h
    · exact Or.inl h
    · rcases up_go_bind n _ _ v b h with h' | ⟨c, hc, hm⟩
      · rcases prop_units_bind _ _ _ v b h' with h'' | ⟨u, hu, hm⟩
        · exact Or.inl h''
        · exact Or.inr ⟨u, (List.mem_filter.1 hu).1, hm⟩
      · rcases prop_units_lit _ _ _ c hc _ hm with ⟨c', hc', hm'⟩
        exact Or.inr ⟨c', hc', hm'⟩

/-- Claim C7 counterexample: on the formula `{{x1}, {-x1}}` both clauses
are unit clauses of the first snapshot and both are propagated, yet the
final assignments map variable 1 to false: the unit `{x1}` was propagated
with polarity true, so it is not true that every propagated unit's variable
ends up mapped to that unit's polarity (the second write overwrote the
first). -/
theorem unit_propagate_polarity_overwrite_cex :
    Clause.ax [L1t] ∈ get_unit_clauses [Clause.ax [L1t], Clause.ax [L1f]] ∧
    L1t.sign = true ∧
    (unit_propagate [Clause.ax [L1t], Clause.ax [L1f]] []).2 = [(1, false)] ∧
    lookupA (unit_propagate [Clause.ax [L1t], Clause.ax [L1f]] []).2 L1t.var =
      some false := by decide

/-- Claim C7 (amended): `unit_propagate` reaches its fixpoint (the returned
formula contains no clause of length 1), and every binding it adds to the
assignments mapping is the variable and polarity of a literal occurring in
the input formula (a propagated unit literal), with later propagations on
the same variable overwriting earlier ones. -/
theorem unit_propagate_no_units_and_bindings (f : List Clause) (A : Assignments)
    {g : List Clause} {B : Assignments} (h : unit_propagate f A = (g, B)) :
    (∀ c ∈ g, c.len ≠ 1) ∧
    (∀ v b, lookupA B v = some b →
      lookupA A v = some b ∨ ∃ c ∈ f, (⟨v, b⟩ : Literal) ∈ c.literals) := by
  constructor
  · intro c hc hlen
    have hg : get_unit_clauses g = [] := by
      have := up_go_no_units (totalLen f + 1) f A (Nat.lt_succ_self _)
      rw [show (up_go (totalLen f + 1) f A).1 = g from by rw [show up_go (totalLen f + 1) f A = unit_propagate f A from rfl, h]] at this
      exact this
    have : c ∈ get_unit_clauses g := List.mem_filter.2 ⟨hc, by simpa using hlen⟩
    rw [hg] at this
    simp at this
  · intro v b hb
    have hB : (up_go (totalLen f + 1) f A).2 = B := by
      rw [show up_go (totalLen f + 1) f A = unit_propagate f A from rfl, h]
    exact up_go_bind (totalLen f + 1) f A v b (hB ▸ hb)

/-- Claim C7 witness: instantiation at `{{x1}, {-x1, x2}}`, which
propagates to the empty formula recording `x1 = true` and `x2 = true`. -/
theorem unit_propagate_no_units_and_bindings_witness :
    unit_propagate [Clause.ax [L1t], Clause.ax [L1f, L2t]] [] =
      ([], [(1, true), (2, true)]) ∧
    ((∀ c ∈ ([] : List Clause), c.len ≠ 1) ∧
      (∀ v b, lookupA [(1, true), (2, true)] v = some b →
        lookupA ([] : Assignments) v = some b ∨
          ∃ c ∈ [Clause.ax [L1t], Clause.ax [L1f, L2t]],
            (⟨v, b⟩ : Literal) ∈ c.literals)) :=
  ⟨by decide, unit_propagate_no_units_and_bindings _ _ (by decide)⟩

theorem remove_assumption_assum (l : Literal) :
    ∀ c, remove_assumption (Clause.assum l) c = c
  | .assum _ => rfl
  | .ax _ => rfl
  | .res ls c1 c2 => by simp [remove_assumption, Clause.isRes]

theorem dpll_internal_unsat_len :
    ∀ (n : Nat) (f : List Clause) (A : Assignments) (c : Clause) (B : Assignments),
      dpll_internal n f A = some (.unsat c, B) → c.literals = []
  | 0, f, A, c, B, h => by simp [dpll_internal] at h
  | n + 1, f, A, c, B, h => by
    unfold dpll_internal at h
    split at h
    · simp at h
    · split at h
      · rename_i c' hfind
        have hp := List.find?_some hfind
        simp only [Option.some.injEq, Prod.mk.injEq, DpllResult.unsat.injEq] at h
        obtain ⟨hc, -⟩ := h
        rw [← hc]
        exact List.length_eq_zero.1 (by simpa [Clause.len] using hp)
      · split at h
        · simp at h
        · split at h
          · simp at h
          · simp at h
          · split at h
            · rename_i hlen
              simp only [Option.some.injEq, Prod.mk.injEq, DpllResult.unsat.injEq] at h
              obtain ⟨hc, -⟩ := h
              rw [← hc]
              exact List.length_eq_zero.1 (by simpa [Clause.len] using hlen)
            · exact dpll_internal_unsat_len n _ _ c B h

/-- Claim C9: whenever the true-branch recursive call of `dpll_internal`
returns UNSAT, the enclosing call returns that UNSAT result immediately:
`remove_assumption` with an Assumption target is the identity, every UNSAT
proof clause has empty literal set, so the pruning test always succeeds and
the second recursive call (the false branch) is never executed. -/
theorem dpll_true_branch_unsat_prunes_false_branch
    (n : Nat) (f : List Clause) (A : Assignments) (v : Int) (c : Clause) (A1 : Assignments)
    (hne : (unit_propagate f A).1.isEmpty = false)
    (hfind : (unit_propagate f A).1.find? (fun c => decide (c.len = 0)) = none)
    (hsel : select_variable (unit_propagate f A).1 = some v)
    (htrue : dpll_internal n (setAdd (unit_propagate f A).1 (Clause.assum ⟨v, true⟩))
        (unit_propagate f A).2 = some (.unsat c, A1)) :
    remove_assumption (Clause.assum ⟨v, true⟩) c = c ∧
    dpll_internal (n + 1) f A = some (.unsat c, A1) := by
  have hra := remove_assumption_assum ⟨v, true⟩ c
  have hlits : c.literals = [] := dpll_internal_unsat_len n _ _ c A1 htrue
  refine ⟨hra, ?_⟩
  unfold dpll_internal
  rw [hne, if_neg (by simp)]
  split
  · rename_i c' hfind'
    rw [hfind] at hfind'
    simp at hfind'
  · split
    · rename_i hsel'
      rw [hsel] at hsel'
      simp at hsel'
    · rename_i v' hsel'
      have hv : v' = v := by
        rw [hsel] at hsel'
        injection hsel' with h'
        exact h'.symm
      subst hv
      split
      · rename_i htrue'
        rw [htrue] at htrue'
        simp at htrue'
      · rename_i s A1' htrue'
        rw [htrue] at htrue'
        simp at htrue'
      · rename_i c' A1' htrue'
        rw [htrue] at htrue'
        simp only [Option.some.injEq, Prod.mk.injEq, DpllResult.unsat.injEq] at htrue'
        obtain ⟨hc, hA⟩ := htrue'
        subst hc
        subst hA
        rw [hra, if_pos (by simp [Clause.len, hlits])]

/-- Claim C9 witness: the pruning step observed on `F4`, where the true
branch on `x1` returns the UNSAT proof `P4` and the whole call returns it
unchanged without a second recursive call. -/
theorem dpll_true_branch_unsat_prunes_false_branch_witness :
    ((unit_propagate F4 []).1.isEmpty = false ∧
      (unit_propagate F4 []).1.find? (fun c => decide (c.len = 0)) = none ∧
      select_variable (unit_propagate F4 []).1 = some 1 ∧
      dpll_internal 2 (setAdd (unit_propagate F4 []).1 (Clause.assum ⟨1, true⟩))
        (unit_propagate F4 []).2 = some (.unsat P4, [(1, true), (2, false)])) ∧
    (remove_assumption (Clause.assum ⟨1, true⟩) P4 = P4 ∧
      dpll_internal 3 F4 [] = some (.unsat P4, [(1, true), (2, false)])) :=
  ⟨⟨by decide, by decide, by decide, by decide⟩,
    dpll_true_branch_unsat_prunes_false_branch 2 F4 [] 1 P4 [(1, true), (2, false)]
      (by decide) (by decide) (by decide) (by decide)⟩

theorem eqvC_true_iff {c d : Clause} :
    eqvC c d = true ↔ ∀ m, m ∈ c.literals ↔ m ∈ d.literals := by
  simp only [eqvC, Bool.and_eq_true, List.all_eq_true, decide_eq_true_eq]
  constructor
  · rintro ⟨h1, h2⟩ m
    exact ⟨fun hm => h1 m hm, fun hm => h2 m hm⟩
  · intro h
    exact ⟨fun m hm => (h m).1 hm, fun m hm => (h m).2 hm⟩

theorem eqvC_refl (c : Clause) : eqvC c c = true :=
  eqvC_true_iff.2 fun _ => Iff.rfl

theorem setAdd_ex (f : List Clause) (c : Clause) :
    ∃ d ∈ setAdd f c, eqvC d c = true := by
  unfold setAdd
  split
  · rename_i h
    rcases List.any_eq_true.1 h with ⟨d, hd, he⟩
    exact ⟨d, hd, he⟩
  · exact ⟨c, List.mem_append.2 (Or.inr (List.mem_singleton.2 rfl)), eqvC_refl c⟩

theorem literal_ne_neg (l : Literal) : l ≠ l.neg := by
  cases l with
  | mk v s => cases s <;> simp [Literal.neg]

theorem nodup_eqv_singleton {ls : List Literal} {l : Literal} (hnd : ls.Nodup)
    (h : ∀ m, m ∈ ls ↔ m ∈ [l]) : ls = [l] := by
  have hperm : ls.Perm [l] := by
    refine (List.perm_ext_iff_of_nodup hnd (by simp)).2 ?_
    intro m
    exact h m
  exact List.perm_singleton.1 hperm

theorem mem_ext_nil {ls : List Literal} (h : ∀ m, m ∈ ls ↔ m ∈ ([] : List Literal)) :
    ls = [] := by
  rw [List.eq_nil_iff_forall_not_mem]
  intro m hm
  simpa using (h m).1 hm

theorem unionLits_nodup {a b : List Literal} (ha : a.Nodup) (hb : b.Nodup) :
    (unionLits a b).Nodup := by
  refine List.Nodup.append ha (hb.filter _) ?_
  intro x hx hx'
  have := (List.mem_filter.1 hx').2
  simp at this
  exact this hx

theorem resolve_nodup {c u : Clause} (hc : c.literals.Nodup) (hu : u.literals.Nodup) :
    (resolve c u).literals.Nodup :=
  (unionLits_nodup hc hu).filter _

theorem upl_go_wf {u : Clause} {l : Literal} (hu : u.literals.Nodup) :
    ∀ (f acc : List Clause), (∀ a ∈ acc, a.literals.Nodup) →
      (∀ c ∈ f, c.literals.Nodup) → ∀ d ∈ upl_go u l acc f, d.literals.Nodup
  | [], acc, hacc, _, d, hd => hacc d hd
  | c :: rest, acc, hacc, hf, d, hd => by
    have hc : c.literals.Nodup := hf c (List.mem_cons_self _ _)
    have hrest : ∀ c' ∈ rest, c'.literals.Nodup :=
      fun c' hc' => hf c' (List.mem_cons_of_mem _ hc')
    unfold upl_go at hd
    split at hd
    · exact upl_go_wf hu rest acc hacc hrest d hd
    · split at hd
      · refine upl_go_wf hu rest _ ?_ hrest d hd
        intro a ha
        rcases mem_of_mem_setAdd ha with h | h
        · exact hacc a h
        · rw [h]
          exact resolve_nodup hc hu
      · refine upl_go_wf hu rest _ ?_ hrest d hd
        intro a ha
        rcases mem_of_mem_setAdd ha with h | h
        · exact hacc a h
        · rw [h]
          exact hc

theorem noEqvIn_iff {c : Clause} {f : List Clause} :
    noEqvIn c f = true ↔ ∀ d ∈ f, eqvC c d = false := by
  simp [noEqvIn]

theorem setlike_append_one {c : Clause} :
    ∀ (f : List Clause), SetLikeB f = true → (∀ d ∈ f, eqvC d c = false) →
      SetLikeB (f ++ [c]) = true
  | [], _, _ => by simp [SetLikeB, noEqvIn]
  | a :: f, h, hno => by
    simp only [SetLikeB, Bool.and_eq_true] at h
    simp only [List.cons_append, SetLikeB, Bool.and_eq_true]
    constructor
    · rw [noEqvIn_iff]
      intro d hd
      rcases List.mem_append.1 hd with h' | h'
      · exact (noEqvIn_iff.1 h.1) d h'
      · rw [List.mem_singleton.1 h']
        exact hno a (List.mem_cons_self _ _)
    · exact setlike_append_one f h.2 (fun d hd => hno d (List.mem_cons_of_mem _ hd))

theorem setAdd_setlike {f : List Clause} {c : Clause} (h : SetLikeB f = true) :
    SetLikeB (setAdd f c) = true := by
  unfold setAdd
  split
  · exact h
  · rename_i hany
    refine setlike_append_one f h ?_
    intro d hd
    by_contra hne
    have : eqvC d c = true := by
      cases he : eqvC d c
      · exact absurd he hne
      · rfl
    exact hany (List.any_eq_true.2 ⟨d, hd, this⟩)

theorem upl_go_setlike {u : Clause} {l : Literal} :
    ∀ (f acc : List Clause), SetLikeB acc = true →
      SetLikeB (upl_go u l acc f) = true
  | [], acc, h => h
  | c :: rest, acc, h => by
    unfold upl_go
    split
    · exact upl_go_setlike rest acc h
    · split
      · exact upl_go_setlike rest _ (setAdd_setlike h)
      · exact upl_go_setlike rest _ (setAdd_setlike h)

theorem setlike_filter {p : Clause → Bool} :
    ∀ (f : List Clause), SetLikeB f = true → SetLikeB (f.filter p) = true
  | [], _ => rfl
  | c :: rest, h => by
    simp only [SetLikeB, Bool.and_eq_true] at h
    by_cases hp : p c = true
    · simp only [List.filter_cons_of_pos hp, SetLikeB, Bool.and_eq_true]
      refine ⟨?_, setlike_filter rest h.2⟩
      rw [noEqvIn_iff]
      intro d hd
      exact (noEqvIn_iff.1 h.1) d (List.mem_of_mem_filter hd)
    · rw [List.filter_cons_of_neg (by simpa using hp)]
      exact setlike_filter rest h.2

theorem upl_go_sub {u : Clause} {l : Literal} :
    ∀ (f acc : List Clause), ∀ x ∈ acc, x ∈ upl_go u l acc f
  | [], _, _, hx => hx
  | c :: rest, acc, x, hx => by
    unfold upl_go
    split
    · exact upl_go_sub rest acc x hx
    · split
      · exact upl_go_sub rest _ x (mem_setAdd_of_mem hx)
      · exact upl_go_sub rest _ x (mem_setAdd_of_mem hx)

theorem upl_go_keep {u : Clause} {l : Literal} :
    ∀ (f acc : List Clause) (c : Clause), c ∈ f → l ∉ c.literals → l.neg ∉ c.literals →
      ∃ d ∈ upl_go u l acc f, ∀ m, m ∈ d.literals ↔ m ∈ c.literals
  | [], acc, c, hc, _, _ => by simp at hc
  | c0 :: rest, acc, c, hc, hl, hn => by
    rcases List.mem_cons.1 hc with rfl | hc'
    · unfold upl_go
      rw [if_neg hl, if_neg hn]
      rcases setAdd_ex acc c with ⟨d, hd, hde⟩
      exact ⟨d, upl_go_sub rest _ d hd, eqvC_true_iff.1 hde⟩
    · unfold upl_go
      split
      · exact upl_go_keep rest acc c hc' hl hn
      · split
        · exact upl_go_keep rest _ c hc' hl hn
        · exact upl_go_keep rest _ c hc' hl hn

theorem upl_go_resolved {u : Clause} {l : Literal} :
    ∀ (f acc : List Clause) (c : Clause), c ∈ f → l ∉ c.literals → l.neg ∈ c.literals →
      ∃ d ∈ upl_go u l acc f, ∀ m, m ∈ d.literals ↔ m ∈ (resolve c u).literals
  | [], acc, c, hc, _, _ => by simp at hc
  | c0 :: rest, acc, c, hc, hl, hn => by
    rcases List.mem_cons.1 hc with rfl | hc'
    · unfold upl_go
      rw [if_neg hl, if_pos hn]
      rcases setAdd_ex acc (resolve c u) with ⟨d, hd, hde⟩
      exact ⟨d, upl_go_sub rest _ d hd, eqvC_true_iff.1 hde⟩
    · unfold upl_go
      split
      · exact upl_go_resolved rest acc c hc' hl hn
      · split
        · exact upl_go_resolved rest _ c hc' hl hn
        · exact upl_go_resolved rest _ c hc' hl hn

theorem stepUnit_eq (f : List Clause) (A : Assignments) (u : Clause) :
    stepUnit f A u = (f, A) ∨
      ∃ l, u.literals = [l] ∧ stepUnit f A u = (upl_go u l [] f, updA A l.var l.sign) := by
  rcases hls : u.literals with _ | ⟨l, _ | ⟨l2, r⟩⟩
  · exact Or.inl (by simp [stepUnit, hls])
  · exact Or.inr ⟨l, rfl, by simp [stepUnit, hls]⟩
  · exact Or.inl (by simp [stepUnit, hls])

theorem prop_units_cons (u : Clause) (us f : List Clause) (A : Assignments) :
    prop_units (u :: us) f A = prop_units us (stepUnit f A u).1 (stepUnit f A u).2 := rfl

theorem upl_go_empty {u : Clause} {l : Literal} {f : List Clause} {c : Clause}
    (hc : c ∈ f) (hcl : c.literals = []) :
    ∃ d ∈ upl_go u l [] f, d.literals = [] := by
  rcases upl_go_keep f [] c hc (by simp [hcl]) (by simp [hcl]) with ⟨d, hd, hiff⟩
  exact ⟨d, hd, mem_ext_nil (hcl ▸ hiff)⟩

theorem prop_units_empty : ∀ (us f : List Clause) (A : Assignments),
    emptyIn f → emptyIn (prop_units us f A).1
  | [], _, _, h => h
  | u :: us, f, A, h => by
    rw [prop_units_cons]
    rcases stepUnit_eq f A u with heq | ⟨l, _, heq⟩
    · rw [heq]
      exact prop_units_empty us f A h
    · rw [heq]
      rcases h with ⟨e, he, hel⟩
      rcases upl_go_empty he hel with ⟨d, hd, hdl⟩
      exact prop_units_empty us _ _ ⟨d, hd, hdl⟩

theorem prop_units_novar : ∀ (us f : List Clause) (A : Assignments) (v : Int),
    ¬ varOccursF v f → ¬ varOccursF v (prop_units us f A).1
  | [], _, _, _, h => h
  | u :: us, f, A, v, h => by
    rw [prop_units_cons]
    rcases stepUnit_eq f A u with heq | ⟨l, hls, heq⟩
    · rw [heq]
      exact prop_units_novar us f A v h
    · rw [heq]
      refine prop_units_novar us _ _ v ?_
      rintro ⟨d, hd, m, hm, hv⟩
      rcases upl_go_lit_origin hls f [] d hd m hm with h' | ⟨c, hc, hm'⟩
      · simp at h'
      · exact h ⟨c, hc, m, hm', hv⟩

theorem prop_units_pres : ∀ (us f : List Clause) (A : Assignments) (v : Int),
    (∀ u ∈ us, ∀ l, u.literals = [l] → l.var ≠ v) →
    lookupA (prop_units us f A).2 v = lookupA A v
  | [], _, _, _, _ => rfl
  | u :: us, f, A, v, h => by
    rw [prop_units_cons]
    rcases stepUnit_eq f A u with heq | ⟨l, hls, heq⟩
    · rw [heq]
      exact prop_units_pres us f A v fun u' hu' => h u' (List.mem_cons_of_mem _ hu')
    · rw [heq]
      have h1 : lookupA (prop_units us (upl_go u l [] f) (updA A l.var l.sign)).2 v =
          lookupA (updA A l.var l.sign) v :=
        prop_units_pres us _ _ v fun u' hu' => h u' (List.mem_cons_of_mem _ hu')
      have h2 : lookupA (updA A l.var l.sign) v = lookupA A v :=
        lookupA_updA_other (Ne.symm (h u (List.mem_cons_self _ _) l hls))
      exact h1.trans h2

theorem prop_units_same : ∀ (us f : List Clause) (A : Assignments) (v : Int) (s : Bool),
    (∀ u ∈ us, ∀ l, u.literals = [l] → l.var = v → l.sign = s) →
    lookupA A v = some s → lookupA (prop_units us f A).2 v = some s
  | [], _, _, _, _, _, hA => hA
  | u :: us, f, A, v, s, h, hA => by
    rw [prop_units_cons]
    rcases stepUnit_eq f A u with heq | ⟨l, hls, heq⟩
    · rw [heq]
      exact prop_units_same us f A v s (fun u' hu' => h u' (List.mem_cons_of_mem _ hu')) hA
    · rw [heq]
      refine prop_units_same us _ _ v s (fun u' hu' => h u' (List.mem_cons_of_mem _ hu')) ?_
      by_cases hv : l.var = v
      · have hs : l.sign = s := h u (List.mem_cons_self _ _) l hls hv
        rw [← hv] at hA ⊢
        rw [lookupA_updA_self, hs]
      · rw [lookupA_updA_other (Ne.symm hv)]
        exact hA

theorem prop_units_wf : ∀ (us f : List Clause) (A : Assignments),
    WFf f → WFf (prop_units us f A).1
  | [], _, _, h => h
  | u :: us, f, A, h => by
    rw [prop_units_cons]
    rcases stepUnit_eq f A u with heq | ⟨l, hls, heq⟩
    · rw [heq]
      exact prop_units_wf us f A h
    · rw [heq]
      refine prop_units_wf us _ _ ?_
      intro d hd
      exact upl_go_wf (by rw [hls]; simp) f [] (by simp) h d hd

theorem prop_units_setlike : ∀ (us f : List Clause) (A : Assignments),
    SetLikeB f = true → SetLikeB (prop_units us f A).1 = true
  | [], _, _, h => h
  | u :: us, f, A, h => by
    rw [prop_units_cons]
    rcases stepUnit_eq f A u with heq | ⟨l, hls, heq⟩
    · rw [heq]
      exact prop_units_setlike us f A h
    · rw [heq]
      exact prop_units_setlike us _ _ (upl_go_setlike f [] rfl)

theorem up_go_novar : ∀ (n : Nat) (f : List Clause) (A : Assignments) (v : Int),
    ¬ varOccursF v f → ¬ varOccursF v (up_go n f A).1
  | 0, _, _, _, h => h
  | n + 1, f, A, v, h => by
    unfold up_go
    split
    · exact h
    · exact up_go_novar n _ _ v (prop_units_novar _ _ _ v h)

theorem up_go_pres : ∀ (n : Nat) (f : List Clause) (A : Assignments) (v : Int),
    ¬ varOccursF v f → lookupA (up_go n f A).2 v = lookupA A v
  | 0, _, _, _, _ => rfl
  | n + 1, f, A, v, h => by
    unfold up_go
    split
    · rfl
    · have h1 : lookupA (up_go n (prop_units (get_unit_clauses f) f A).1
          (prop_units (get_unit_clauses f) f A).2).2 v =
          lookupA (prop_units (get_unit_clauses f) f A).2 v :=
        up_go_pres n _ _ v (prop_units_novar _ _ _ v h)
      have h2 : lookupA (prop_units (get_unit_clauses f) f A).2 v = lookupA A v := by
        refine prop_units_pres _ _ _ v ?_
        intro u hu l hls hv
        have hum : u ∈ f := (List.mem_filter.1 hu).1
        have hlm : l ∈ u.literals := by rw [hls]; exact List.mem_singleton.2 rfl
        exact h ⟨u, hum, l, hlm, hv⟩
      exact h1.trans h2

theorem up_go_wf : ∀ (n : Nat) (f : List Clause) (A : Assignments),
    WFf f → WFf (up_go n f A).1
  | 0, _, _, h => h
  | n + 1, f, A, h => by
    unfold up_go
    split
    · exact h
    · exact up_go_wf n _ _ (prop_units_wf _ _ _ h)

theorem up_go_setlike : ∀ (n : Nat) (f : List Clause) (A : Assignments),
    SetLikeB f = true → SetLikeB (up_go n f A).1 = true
  | 0, _, _, h => h
  | n + 1, f, A, h => by
    unfold up_go
    split
    · exact h
    · exact up_go_setlike n _ _ (prop_units_setlike _ _ _ h)

theorem prop_units_sat : ∀ (us f : List Clause) (A : Assignments),
    (∀ u ∈ us, ∃ l, u.literals = [l]) →
    (∀ u ∈ us, (∃ d ∈ f, eqvC d u = true) ∨ emptyIn f) →
    SetLikeB us = true →
    WFf f →
    ∀ c ∈ f,
      (∃ m ∈ c.literals, lookupA (prop_units us f A).2 m.var = some m.sign ∧
        ¬ varOccursF m.var (prop_units us f A).1) ∨
      (∃ d ∈ (prop_units us f A).1, ∀ m ∈ d.literals, m ∈ c.literals)
  | [], f, A, _, _, _, _, c, hc => Or.inr ⟨c, hc, fun _ hm => hm⟩
  | u :: us, f, A, h1, h2, hpw, hwf, c, hc => by
    obtain ⟨l, hls⟩ := h1 u (List.mem_cons_self _ _)
    rw [prop_units_cons]
    have hstep : stepUnit f A u = (upl_go u l [] f, updA A l.var l.sign) := by
      simp [stepUnit, hls]
    rw [hstep]
    have h1' : ∀ u' ∈ us, ∃ l', u'.literals = [l'] :=
      fun u' hu' => h1 u' (List.mem_cons_of_mem _ hu')
    have hpwsplit : noEqvIn u us = true ∧ SetLikeB us = true := by
      simpa [SetLikeB, Bool.and_eq_true] using hpw
    have hhead : ∀ u' ∈ us, eqvC u u' = false := noEqvIn_iff.1 hpwsplit.1
    have hpw' : SetLikeB us = true := hpwsplit.2
    have hwf1 : WFf (upl_go u l [] f) :=
      fun d hd => upl_go_wf (by rw [hls]; simp) f [] (by simp) hwf d hd
    have hmkempty : ∀ d ∈ f, d.literals = [Literal.neg l] → emptyIn (upl_go u l [] f) := by
      intro d hd hdl
      have hlnot : l ∉ d.literals := by
        rw [hdl, List.mem_singleton]
        exact literal_ne_neg l
      have hneg : l.neg ∈ d.literals := by
        rw [hdl]
        exact List.mem_singleton.2 rfl
      rcases upl_go_resolved f [] d hd hlnot hneg with ⟨e, he, hiff⟩
      have hres : (resolve d u).literals = [] := by
        rw [List.eq_nil_iff_forall_not_mem]
        intro m hm
        have hmm := mem_resolve_literals.1 hm
        have hrv : l.var ∈ resolveVars d u := lvar_mem_resolveVars hls hneg
        rcases hmm.1 with hmd | hmu
        · rw [hdl] at hmd
          have hmneg : m = l.neg := List.mem_singleton.1 hmd
          exact hmm.2 (by rw [hmneg, literal_neg_var]; exact hrv)
        · rw [hls] at hmu
          have hml : m = l := List.mem_singleton.1 hmu
          exact hmm.2 (by rw [hml]; exact hrv)
      exact ⟨e, he, mem_ext_nil (hres ▸ hiff)⟩
    have h2' : ∀ u' ∈ us,
        (∃ d ∈ upl_go u l [] f, eqvC d u' = true) ∨ emptyIn (upl_go u l [] f) := by
      intro u' hu'
      rcases h2 u' (List.mem_cons_of_mem _ hu') with ⟨d, hd, hde⟩ | hemp
      · obtain ⟨l', hls'⟩ := h1' u' hu'
        have hdl : d.literals = [l'] := by
          apply nodup_eqv_singleton (hwf d hd)
          intro m
          rw [← hls']
          exact eqvC_true_iff.1 hde m
        by_cases hll : l' = l
        · exfalso
          have heq : eqvC u u' = true := by
            apply eqvC_true_iff.2
            intro m
            rw [hls, hls', hll]
          rw [hhead u' hu'] at heq
          exact Bool.false_ne_true heq
        · by_cases hln : l' = l.neg
          · exact Or.inr (hmkempty d hd (by rw [hdl, hln]))
          · have hl1 : l ∉ d.literals := by
              rw [hdl, List.mem_singleton]
              exact fun he => hll he.symm
            have hl2 : l.neg ∉ d.literals := by
              rw [hdl, List.mem_singleton]
              exact fun he => hln he.symm
            rcases upl_go_keep f [] d hd hl1 hl2 with ⟨e, he, hiff⟩
            refine Or.inl ⟨e, he, eqvC_true_iff.2 ?_⟩
            intro m
            rw [hiff m]
            exact eqvC_true_iff.1 hde m
      · rcases hemp with ⟨e, he, hel⟩
        rcases upl_go_empty he hel with ⟨d, hd, hdl⟩
        exact Or.inr ⟨d, hd, hdl⟩
    by_cases hlc : l ∈ c.literals
    · by_cases hneg2 : ∃ u' ∈ us, Literal.neg l ∈ u'.literals
      · rcases hneg2 with ⟨u', hu', hnm⟩
        have hemp1 : emptyIn (upl_go u l [] f) := by
          rcases h2 u' (List.mem_cons_of_mem _ hu') with ⟨d, hd, hde⟩ | hemp
          · obtain ⟨l', hls'⟩ := h1' u' hu'
            have hl'eq : l' = l.neg := by
              rw [hls'] at hnm
              exact (List.mem_singleton.1 hnm).symm
            have hdl : d.literals = [Literal.neg l] := by
              apply nodup_eqv_singleton (hwf d hd)
              intro m
              rw [← hl'eq, ← hls']
              exact eqvC_true_iff.1 hde m
            exact hmkempty d hd hdl
          · rcases hemp with ⟨e, he, hel⟩
            rcases upl_go_empty he hel with ⟨d, hd, hdl⟩
            exact ⟨d, hd, hdl⟩
        rcases prop_units_empty us _ (updA A l.var l.sign) hemp1 with ⟨d, hd, hdl⟩
        refine Or.inr ⟨d, hd, ?_⟩
        intro m hm
        rw [hdl] at hm
        simp at hm
      · refine Or.inl ⟨l, hlc, ?_, ?_⟩
        · refine prop_units_same us _ _ l.var l.sign ?_ (lookupA_updA_self A l.var l.sign)
          intro u' hu' l' hls' hv
          rcases literal_var_cases hv with rfl | hln
          · rfl
          · exfalso
            apply hneg2
            refine ⟨u', hu', ?_⟩
            rw [hls', ← hln]
            exact List.mem_singleton.2 rfl
        · refine prop_units_novar us _ _ l.var ?_
          rintro ⟨d, hd, m, hm, hv⟩
          exact upl_go_no_var hls f d hd m hm hv
    · by_cases hnegc : Literal.neg l ∈ c.literals
      · rcases upl_go_resolved f [] c hc hlc hnegc with ⟨e, he, hiff⟩
        have hmm : ∀ m ∈ e.literals, m ∈ c.literals := by
          intro m hm
          have hmr := mem_resolve_literals.1 ((hiff m).1 hm)
          rcases hmr.1 with hmc | hmu
          · exact hmc
          · exfalso
            rw [hls] at hmu
            have hml : m = l := List.mem_singleton.1 hmu
            exact hmr.2 (hml ▸ lvar_mem_resolveVars hls hnegc)
        rcases prop_units_sat us _ (updA A l.var l.sign) h1' h2' hpw' hwf1 e he with
          ⟨m, hm, hlk, hnv⟩ | ⟨d, hd, hsub⟩
        · exact Or.inl ⟨m, hmm m hm, hlk, hnv⟩
        · exact Or.inr ⟨d, hd, fun m hm => hmm m (hsub m hm)⟩
      · rcases upl_go_keep f [] c hc hlc hnegc with ⟨e, he, hiff⟩
        rcases prop_units_sat us _ (updA A l.var l.sign) h1' h2' hpw' hwf1 e he with
          ⟨m, hm, hlk, hnv⟩ | ⟨d, hd, hsub⟩
        · exact Or.inl ⟨m, (hiff m).1 hm, hlk, hnv⟩
        · exact Or.inr ⟨d, hd, fun m hm => (hiff m).1 (hsub m hm)⟩

theorem up_go_sat : ∀ (n : Nat) (f : List Clause) (A : Assignments),
    WFf f → SetLikeB f = true →
    ∀ c ∈ f,
      (∃ m ∈ c.literals, lookupA (up_go n f A).2 m.var = some m.sign ∧
        ¬ varOccursF m.var (up_go n f A).1) ∨
      (∃ d ∈ (up_go n f A).1, ∀ m ∈ d.literals, m ∈ c.literals)
  | 0, _, _, _, _, c, hc => Or.inr ⟨c, hc, fun _ hm => hm⟩
  | n + 1, f, A, hwf, hsl, c, hc => by
    unfold up_go
    split
    · exact Or.inr ⟨c, hc, fun _ hm => hm⟩
    · have hround := prop_units_sat (get_unit_clauses f) f A
        (fun u hu => List.length_eq_one.1 (by
          have := (List.mem_filter.1 hu).2
          simpa [Clause.len] using this))
        (fun u hu => Or.inl ⟨u, (List.mem_filter.1 hu).1, eqvC_refl u⟩)
        (setlike_filter f hsl) hwf c hc
      rcases hround with ⟨m, hm, hlk, hnv⟩ | ⟨d, hd, hsub⟩
      · refine Or.inl ⟨m, hm, ?_, ?_⟩
        · rw [up_go_pres n _ _ m.var hnv]
          exact hlk
        · exact up_go_novar n _ _ m.var hnv
      · rcases up_go_sat n _ _ (prop_units_wf _ _ _ hwf) (prop_units_setlike _ _ _ hsl)
          d hd with ⟨m, hm, hlk, hnv⟩ | ⟨e, he, hsub2⟩
        · exact Or.inl ⟨m, hsub m hm, hlk, hnv⟩
        · exact Or.inr ⟨e, he, fun m hm => hsub m (hsub2 m hm)⟩

theorem unit_propagate_pres {f : List Clause} {A : Assignments} {v : Int}
    (h : ¬ varOccursF v f) : lookupA (unit_propagate f A).2 v = lookupA A v :=
  up_go_pres _ f A v h

theorem unit_propagate_novar {f : List Clause} {A : Assignments} {v : Int}
    (h : ¬ varOccursF v f) : ¬ varOccursF v (unit_propagate f A).1 :=
  up_go_novar _ f A v h

theorem unit_propagate_wf {f : List Clause} {A : Assignments} (h : WFf f) :
    WFf (unit_propagate f A).1 :=
  up_go_wf _ f A h

theorem unit_propagate_setlike {f : List Clause} {A : Assignments}
    (h : SetLikeB f = true) : SetLikeB (unit_propagate f A).1 = true :=
  up_go_setlike _ f A h

theorem unit_propagate_sat {f : List Clause} {A : Assignments}
    (hwf : WFf f) (hsl : SetLikeB f = true) :
    ∀ c ∈ f,
      (∃ m ∈ c.literals, lookupA (unit_propagate f A).2 m.var = some m.sign ∧
        ¬ varOccursF m.var (unit_propagate f A).1) ∨
      (∃ d ∈ (unit_propagate f A).1, ∀ m ∈ d.literals, m ∈ c.literals) :=
  up_go_sat _ f A hwf hsl

theorem select_variable_occurs : ∀ (f : List Clause) (v : Int),
    select_variable f = some v → varOccursF v f
  | [], v, h => by simp [select_variable] at h
  | c :: rest, v, h => by
    rcases hls : c.literals with _ | ⟨l, ls⟩
    · simp only [select_variable, hls] at h
      rcases select_variable_occurs rest v h with ⟨d, hd, m, hm, hv⟩
      exact ⟨d, List.mem_cons_of_mem _ hd, m, hm, hv⟩
    · simp only [select_variable, hls] at h
      have hv : l.var = v := by injection h
      exact ⟨c, List.mem_cons_self _ _, l,
        by rw [hls]; exact List.mem_cons_self _ _, hv⟩

theorem varOccursF_setAdd {f : List Clause} {c : Clause} {v : Int}
    (h : varOccursF v (setAdd f c)) :
    varOccursF v f ∨ ∃ m ∈ c.literals, m.var = v := by
  rcases h with ⟨d, hd, m, hm, hv⟩
  rcases mem_of_mem_setAdd hd with h' | rfl
  · exact Or.inl ⟨d, h', m, hm, hv⟩
  · exact Or.inr ⟨m, hm, hv⟩

theorem WFf_setAdd {f : List Clause} {c : Clause} (hf : WFf f)
    (hc : c.literals.Nodup) : WFf (setAdd f c) := by
  intro d hd
  rcases mem_of_mem_setAdd hd with h' | rfl
  · exact hf d h'
  · exact hc

theorem dpll_internal_pres : ∀ (n : Nat) (f : List Clause) (A : Assignments)
    (r : DpllResult) (B : Assignments) (v : Int),
    dpll_internal n f A = some (r, B) → ¬ varOccursF v f →
    lookupA B v = lookupA A v
  | 0, f, A, r, B, v, h, _ => by simp [dpll_internal] at h
  | n + 1, f, A, r, B, v, h, hnv => by
    unfold dpll_internal at h
    split at h
    · simp only [Option.some.injEq, Prod.mk.injEq] at h
      rw [← h.2]
      exact unit_propagate_pres hnv
    · split at h
      · simp only [Option.some.injEq, Prod.mk.injEq] at h
        rw [← h.2]
        exact unit_propagate_pres hnv
      · split at h
        · simp at h
        · rename_i v' hsel
          have hnv1 : ¬ varOccursF v (unit_propagate f A).1 := unit_propagate_novar hnv
          have hvv : v' ≠ v := by
            intro he
            exact hnv1 (he ▸ select_variable_occurs _ v' hsel)
          have hsub : ¬ varOccursF v
              (setAdd (unit_propagate f A).1 (Clause.assum ⟨v', true⟩)) := by
            intro hocc
            rcases varOccursF_setAdd hocc with h' | ⟨m, hm, hv⟩
            · exact hnv1 h'
            · have hm2 : m = ⟨v', true⟩ := by simpa [Clause.literals] using hm
              exact hvv (by rw [← hv, hm2])
          split at h
          · simp at h
          · rename_i s A1 htrue
            simp only [Option.some.injEq, Prod.mk.injEq] at h
            rw [← h.2]
            rw [dpll_internal_pres n _ _ _ _ v htrue hsub]
            exact unit_propagate_pres hnv
          · rename_i c' A1 htrue
            split at h
            · simp only [Option.some.injEq, Prod.mk.injEq] at h
              rw [← h.2]
              rw [dpll_internal_pres n _ _ _ _ v htrue hsub]
              exact unit_propagate_pres hnv
            · rename_i hcond
              exfalso
              have hlits : c'.literals = [] := dpll_internal_unsat_len n _ _ c' A1 htrue
              apply hcond
              rw [remove_assumption_assum]
              simp [Clause.len, hlits]

theorem dpll_internal_sat_payload : ∀ (n : Nat) (f : List Clause) (A : Assignments)
    (s B : Assignments), dpll_internal n f A = some (.sat s, B) → s = B
  | 0, f, A, s, B, h => by simp [dpll_internal] at h
  | n + 1, f, A, s, B, h => by
    unfold dpll_internal at h
    split at h
    · simp only [Option.some.injEq, Prod.mk.injEq, DpllResult.sat.injEq] at h
      rw [← h.1, ← h.2]
    · split at h
      · simp at h
      · split at h
        · simp at h
        · split at h
          · simp at h
          · rename_i s' A1 htrue
            simp only [Option.some.injEq, Prod.mk.injEq, DpllResult.sat.injEq] at h
            rw [← h.1, ← h.2]
            exact dpll_internal_sat_payload n _ _ s' A1 htrue
          · rename_i c' A1 htrue
            split at h
            · simp at h
            · rename_i hcond
              exfalso
              have hlits : c'.literals = [] := dpll_internal_unsat_len n _ _ c' A1 htrue
              apply hcond
              rw [remove_assumption_assum]
              simp [Clause.len, hlits]

theorem dpll_internal_sat : ∀ (n : Nat) (f : List Clause) (A : Assignments)
    (s B : Assignments), WFf f → SetLikeB f = true →
    dpll_internal n f A = some (.sat s, B) →
    ∀ c ∈ f, ∃ m ∈ c.literals, lookupA s m.var = some m.sign
  | 0, f, A, s, B, _, _, h => by simp [dpll_internal] at h
  | n + 1, f, A, s, B, hwf, hsl, h => by
    intro c hc
    unfold dpll_internal at h
    split at h
    · rename_i hemp
      simp only [Option.some.injEq, Prod.mk.injEq, DpllResult.sat.injEq] at h
      rcases unit_propagate_sat hwf hsl c hc with ⟨m, hm, hlk, _⟩ | ⟨d, hd, _⟩
      · exact ⟨m, hm, by rw [← h.1]; exact hlk⟩
      · exfalso
        have hnil : (unit_propagate f A).1 = [] := by simpa using hemp
        rw [hnil] at hd
        simp at hd
    · split at h
      · simp at h
      · split at h
        · simp at h
        · rename_i v' hsel
          split at h
          · simp at h
          · rename_i s' A1 htrue
            simp only [Option.some.injEq, Prod.mk.injEq, DpllResult.sat.injEq] at h
            have hwf2 : WFf (setAdd (unit_propagate f A).1 (Clause.assum ⟨v', true⟩)) :=
              WFf_setAdd (unit_propagate_wf hwf) (by simp [Clause.literals])
            have hsl2 : SetLikeB
                (setAdd (unit_propagate f A).1 (Clause.assum ⟨v', true⟩)) = true :=
              setAdd_setlike (unit_propagate_setlike hsl)
            have hpay : s' = A1 := dpll_internal_sat_payload n _ _ s' A1 htrue
            rcases unit_propagate_sat hwf hsl c hc with ⟨m, hm, hlk, hnv⟩ | ⟨d, hd, hsub⟩
            · have hvv : v' ≠ m.var := fun he =>
                hnv (he ▸ select_variable_occurs _ v' hsel)
              have hsub2 : ¬ varOccursF m.var
                  (setAdd (unit_propagate f A).1 (Clause.assum ⟨v', true⟩)) := by
                intro hocc
                rcases varOccursF_setAdd hocc with h' | ⟨m', hm', hv'⟩
                · exact hnv h'
                · have hm2 : m' = ⟨v', true⟩ := by simpa [Clause.literals] using hm'
                  exact hvv (by rw [← hv', hm2])
              have hpres := dpll_internal_pres n _ _ _ _ m.var htrue hsub2
              refine ⟨m, hm, ?_⟩
              rw [← h.1, hpay, hpres]
              exact hlk
            · have hd2 : d ∈ setAdd (unit_propagate f A).1 (Clause.assum ⟨v', true⟩) :=
                mem_setAdd_of_mem hd
              rcases dpll_internal_sat n _ _ s' A1 hwf2 hsl2 htrue d hd2 with ⟨m, hm, hlk2⟩
              exact ⟨m, hsub m hm, by rw [← h.1]; exact hlk2⟩
          · rename_i c' A1 htrue
            split at h
            · simp at h
            · rename_i hcond
              exfalso
              have hlits : c'.literals = [] := dpll_internal_unsat_len n _ _ c' A1 htrue
              apply hcond
              rw [remove_assumption_assum]
              simp [Clause.len, hlits]

/-- Claim C4: if `dpll` returns SAT with assignment `s`, then every clause
of the input formula (in particular every Axiom of F) contains at least one
literal whose variable is mapped by `s` to that literal's sign.  The two
well-formedness hypotheses state that the input models a Python
`Set[Clause]` of frozenset-based clauses: literal lists are duplicate-free
and clause literal sets are pairwise distinct. -/
theorem dpll_sat_assignment_satisfies_formula (f : List Clause) (s B : Assignments)
    (hwf : WFf f) (hsl : SetLikeB f = true)
    (h : dpll f = some (.sat s, B)) :
    ∀ c ∈ f, ∃ m ∈ c.literals, lookupA s m.var = some m.sign :=
  dpll_internal_sat (numVars f + 1) f [] s B hwf hsl h

/-- Claim C4 witness: instantiation at the satisfiable formula `{{x1, x2}}`,
solved with `x1 = true`. -/
theorem dpll_sat_assignment_satisfies_formula_witness :
    WFf [Clause.ax [L1t, L2t]] ∧ SetLikeB [Clause.ax [L1t, L2t]] = true ∧
    dpll [Clause.ax [L1t, L2t]] = some (.sat [(1, true)], [(1, true)]) ∧
    (∀ c ∈ [Clause.ax [L1t, L2t]], ∃ m ∈ c.literals,
      lookupA [(1, true)] m.var = some m.sign) :=
  ⟨by unfold WFf; decide, by decide, by decide,
    dpll_sat_assignment_satisfies_formula [Clause.ax [L1t, L2t]] [(1, true)] [(1, true)]
      (by unfold WFf; decide) (by decide) (by decide)⟩

